import Mathlib

/-!
# Verification of the choji.store validation and caching utility layer

This file is a shallow embedding, in Lean 4, of the schema-validation and
caching utilities of the repository:

* "src/utils/memoize.ts"          -- the "memoizeValidator" TTL/FIFO cache wrapper
* "src/utils/validators.ts"       -- the string validators (the version with the
                                     TypeError guards and the strict rating /
                                     review-count checks, i.e. the module the
                                     repository's own test-suite exercises)
* "src/utils/schemaGenerators.ts" -- "generateProductSchema"
* "src/utils/schemaCache.ts"      -- the "SchemaCache" set/get store
* "src/utils/types.ts"            -- the "VALID_CURRENCIES" / availability lists

Modelling conventions, used throughout:

* A JavaScript "Map" is modelled by an association list "List (k x v)" kept in
  insertion order.  "Map.get" is the first entry with the key, "Map.set"
  overwrites in place when the key is present (a JS Map keeps the original
  insertion position) and appends otherwise, "Map.delete" removes the key, and
  iteration order ("entries()") is list order.
* "Date.now()" is passed in explicitly as a "now : Nat" (milliseconds).  The
  several "Date.now()" reads inside one call of a function are modelled as one
  instant.  JS computes signed differences "now - timestamp"; with Nat
  truncated subtraction a clock that runs backwards yields 0, and both give
  the same comparison results against the TTL (a negative age and a zero age
  are both below the TTL and both fail the strict "age > TTL" test).
* The memoize wrapper keys its cache by "JSON.stringify(input)".  Every input
  the repository feeds it is a string, and "JSON.stringify" is injective on
  strings, so the model keys the cache by the input itself (any type with
  decidable equality).
* Strings are processed as their character lists ("String.data") so that all
  definitions are structural and kernel-evaluable.
-/

/-! ## Character and digit helpers -/

/-- "0123456789" digit test, as in the character class "\d" of the source's
regular expressions. -/
def isDigitCh (c : Char) : Bool := '0' ≤ c && c ≤ '9'

/-- Numeric value of a digit character. -/
def digitVal (c : Char) : Nat := c.toNat - 48

/-- Decimal value of a digit string, most significant digit first; the exact
value of "parseInt(s, 10)" on an all-digit string. -/
def digitsToNat (ds : List Char) : Nat := ds.foldl (fun a c => a * 10 + digitVal c) 0

/-- "s.split(sep)" of JavaScript on a one-character separator: splits into the
(possibly empty) segments between occurrences of the separator, so that
"a.b" gives ["a","b"], "." gives ["",""], and "" gives [""]. -/
def splitOnCh (sep : Char) : List Char → List (List Char)
  | [] => [[]]
  | c :: t =>
    if c = sep then [] :: splitOnCh sep t
    else
      match splitOnCh sep t with
      | [] => [[c]]
      | a :: rest => (c :: a) :: rest

/-! ## The JavaScript Map, as an insertion-ordered association list -/

/-- "Map.get k": the entry stored under key "k". -/
def mapGet {κ δ : Type} [DecidableEq κ] (c : List (κ × δ)) (k : κ) : Option δ :=
  (c.find? (fun p => p.1 = k)).map (fun p => p.2)

/-- "Map.set k v": overwrite in place when the key is present (a JS Map keeps
the original insertion position of an updated key), append otherwise. -/
def mapSet {κ δ : Type} [DecidableEq κ] (c : List (κ × δ)) (k : κ) (v : δ) : List (κ × δ) :=
  if c.any (fun p => p.1 = k) then
    c.map (fun p => if p.1 = k then (k, v) else p)
  else
    c ++ [(k, v)]

/-- "Map.delete k". -/
def mapDelete {κ δ : Type} [DecidableEq κ] (c : List (κ × δ)) (k : κ) : List (κ × δ) :=
  c.filter (fun p => p.1 ≠ k)

/-- The keys of a map state, in insertion order. -/
def mapKeys {κ δ : Type} (c : List (κ × δ)) : List κ := c.map Prod.fst

/-- A well-formed JS Map never stores a key twice. -/
def KeysNodup {κ δ : Type} (c : List (κ × δ)) : Prop := (mapKeys c).Nodup

instance {κ δ : Type} [DecidableEq κ] (c : List (κ × δ)) : Decidable (KeysNodup c) := by
  unfold KeysNodup; infer_instance

/-! ## "src/utils/memoize.ts" -- the memoizeValidator wrapper

"memoizeValidator(fn, maxSize = 100)" closes over a Map from the serialized
input to "{ value, timestamp }" and a TTL of 5 minutes.  One call of the
returned function is modelled by "memoCall" below; the Boolean "invoked"
records whether the underlying "fn" was invoked during the call (the
call-count spy of the spec's test wording). -/

/-- "const TTL = 5 * 60 * 1000" (milliseconds). -/
def TTL : Nat := 5 * 60 * 1000

/-- A cache entry "{ value: TOutput, timestamp: number }". -/
structure MemoEntry (β : Type) where
  value : β
  timestamp : Nat
deriving DecidableEq

/-- The cache state of one memoized validator. -/
abbrev MemoCache (α β : Type) : Type := List (α × MemoEntry β)

/-- "function cleanup()": delete every entry with "now - entry.timestamp > TTL"
(note: strictly greater, so an entry aged exactly TTL survives the sweep). -/
def cleanup {α β : Type} (now : Nat) (c : MemoCache α β) : MemoCache α β :=
  c.filter (fun p => ¬ (now - p.2.timestamp > TTL))

/-- The size-bound block at the top of "memoized": if the cache has reached
"maxSize", run "cleanup()", and if it is still at "maxSize" delete
"entries[0]" -- the key of the first entry in insertion order. -/
def evictPhase {α β : Type} [DecidableEq α] (maxSize now : Nat) (c : MemoCache α β) :
    MemoCache α β :=
  if maxSize ≤ c.length then
    if maxSize ≤ (cleanup now c).length then
      match cleanup now c with
      | [] => cleanup now c
      | x :: _ => mapDelete (cleanup now c) x.1
    else cleanup now c
  else c

/-- Result of one call of the memoized function: the returned value, the cache
afterwards, and whether "fn" was invoked. -/
structure MemoResult (α β : Type) where
  value : β
  cache : MemoCache α β
  invoked : Bool

/-- One call of the function returned by "memoizeValidator(fn, maxSize)": run
the size-bound block, then return a live cached value if one exists for the
key, otherwise invoke "fn" and store the result with the current timestamp.
(The source binds the swept cache once; here "evictPhase maxSize now c" is
written out at each use.) -/
def memoCall {α β : Type} [DecidableEq α] (fn : α → β) (maxSize : Nat)
    (c : MemoCache α β) (input : α) (now : Nat) : MemoResult α β :=
  match mapGet (evictPhase maxSize now c) input with
  | some e =>
    if now - e.timestamp < TTL then ⟨e.value, evictPhase maxSize now c, false⟩
    else ⟨fn input, mapSet (evictPhase maxSize now c) input ⟨fn input, now⟩, true⟩
  | none => ⟨fn input, mapSet (evictPhase maxSize now c) input ⟨fn input, now⟩, true⟩

/-- The cache after a sequence of calls "(input, now)" starting from the fresh
(empty) cache created by "memoizeValidator". -/
def runCalls {α β : Type} [DecidableEq α] (fn : α → β) (maxSize : Nat)
    (calls : List (α × Nat)) : MemoCache α β :=
  calls.foldl (fun c p => (memoCall fn maxSize c p.1 p.2).cache) []

/-- Every value stored in the cache is the value of "fn" at the stored key;
this is the invariant behind cache transparency. -/
def CacheConsistent {α β : Type} (fn : α → β) (c : MemoCache α β) : Prop :=
  ∀ p ∈ c, p.2.value = fn p.1

/-! ## "src/utils/validators.ts" -- string validators

The string-branch bodies of the validators are embedded below; the leading
"typeof x !== 'string'" guards are modelled separately (see JsValue near the
end of the definitions).  Strings are processed as character lists. -/

/-- An exact unsigned decimal number "mant / 10 ^ exp".  The JS numbers
produced by "parseFloat" inside the rating validator are modelled exactly:
every string that reaches the comparison is an unsigned decimal numeral, and
although JS compares IEEE doubles, rounding to the nearest double cannot move
a value across the bounds 0 and 5 in a way that changes any final result of
the validator (values at most 5 round to at most 5 since 5 is representable
and rounding is monotone; values above 5 that round into the bound are
rejected afterwards by the fractional-part whitelist). -/
structure DecNum where
  mant : Nat
  exp : Nat
deriving DecidableEq

/-- Model of "parseFloat", restricted to the strings that can reach it inside
"_isValidRating": by the preceding format checks they contain only digits and
at most one decimal point, not in first or last position.  On that domain
"parseFloat" returns NaN exactly on the empty string and otherwise the exact
decimal value.  (Inputs with two or more dots cannot reach the call; the
"none" returned for them here stands in for that unreachable branch.) -/
def parseFloatDec (cs : List Char) : Option DecNum :=
  match splitOnCh '.' cs with
  | [int] => if int = [] then none else some ⟨digitsToNat int, 0⟩
  | [int, frac] =>
    if int = [] ∧ frac = [] then none
    else some ⟨digitsToNat int * 10 ^ frac.length + digitsToNat frac, frac.length⟩
  | _ => none

/-- The regular expression "/^0\d/": a leading zero followed directly by
another digit. -/
def leadZeroDigit (cs : List Char) : Bool :=
  match cs with
  | c0 :: c1 :: _ => c0 == '0' && isDigitCh c1
  | _ => false

/-- "_isValidRating" (string branch): reject any character other than a digit
or a dot; reject a leading or trailing dot; reject more than one dot; reject
a leading zero followed by a digit; reject spaces (subsumed by the first
check); reject NaN; reject values outside [0, 5] ("numericRating < 0" cannot
hold for an unsigned numeral but is kept as in the source); and when a
fractional part exists, reject it unless it is one of "0", "25", "5", "75"
(checking its length first, as the source does). -/
def _isValidRating (cs : List Char) : Bool :=
  if cs.any (fun c => !(isDigitCh c || c == '.')) then false
  else if cs.head? = some '.' ∨ cs.getLast? = some '.' then false
  else if 1 < cs.count '.' then false
  else if leadZeroDigit cs then false
  else if cs.contains ' ' then false
  else
    match parseFloatDec cs with
    | none => false
    | some d =>
      if decide (d.mant < 0) || decide (5 * 10 ^ d.exp < d.mant) then false
      else
        match splitOnCh '.' cs with
        | _ :: frac :: _ =>
          if 2 < frac.length then false
          else decide (frac = ['0'] ∨ frac = ['2', '5'] ∨ frac = ['5'] ∨ frac = ['7', '5'])
        | _ => true

/-- "no leading zeros before a further digit": the numeral does not start with
the digit 0 followed directly by another digit (so "0" and "0.5" pass, while
"01" and "00" do not). -/
def noLeadingZero : List Char → Bool
  | c0 :: _ :: _ => !(c0 == '0')
  | _ => true

/-- Claim C4's acceptance condition, formalized from the claim's words.  A
decimal numeral here is a nonempty integer-digit part, optionally followed by
a decimal point and a nonempty fractional-digit part ("no trailing decimal
point", "at most one decimal point").  Only digits and the decimal point
occur, so there is no sign (in particular no leading plus; a minus sign would
in any case put the value outside [0, 5]), no whitespace, and no scientific
notation.  The integer part has no leading zero ahead of a further digit.
The denoted value lies in [0, 5]: the numeral is unsigned, so only the upper
bound matters, and the value of "int.frac" is at most 5 exactly when
"intValue * 10 ^ k + fracValue <= 5 * 10 ^ k" for "k" fractional digits.
The fractional part, when present, is literally one of "0", "25", "5", "75". -/
def RatingSpec (cs : List Char) : Prop :=
  (cs ≠ [] ∧ (∀ c ∈ cs, isDigitCh c = true) ∧ noLeadingZero cs = true ∧
    digitsToNat cs ≤ 5) ∨
  (∃ int frac, cs = int ++ '.' :: frac ∧ int ≠ [] ∧ frac ≠ [] ∧
    (∀ c ∈ int, isDigitCh c = true) ∧ (∀ c ∈ frac, isDigitCh c = true) ∧
    noLeadingZero int = true ∧
    (frac = ['0'] ∨ frac = ['2', '5'] ∨ frac = ['5'] ∨ frac = ['7', '5']) ∧
    digitsToNat int * 10 ^ frac.length + digitsToNat frac ≤ 5 * 10 ^ frac.length)

/-- "_isValidReviewCount" (string branch): "/^\d+$/" (one or more digits and
nothing else), then "parseInt(count, 10) >= 0".  On an all-digit string
"parseInt" yields its nonnegative decimal value (beyond 2^53 a rounded
double, but still nonnegative, so the comparison is unaffected). -/
def _isValidReviewCount (cs : List Char) : Bool :=
  if cs ≠ [] ∧ (∀ c ∈ cs, isDigitCh c = true) then decide (0 ≤ digitsToNat cs)
  else false

/-- "VALID_CURRENCIES" from "src/utils/types.ts". -/
def VALID_CURRENCIES : List String := ["USD", "EUR", "GBP", "JPY", "CAD", "AUD"]

/-- "VALID_AVAILABILITY_STATES" from "src/utils/types.ts". -/
def VALID_AVAILABILITY_STATES : List String :=
  ["https://schema.org/InStock", "https://schema.org/OutOfStock",
   "https://schema.org/PreOrder", "https://schema.org/Discontinued"]

/-- "_isValidCurrency" (string branch): "VALID_CURRENCIES.includes(currency)". -/
def _isValidCurrency (s : String) : Bool := VALID_CURRENCIES.contains s

/-- "_isValidAvailability" (string branch):
"VALID_AVAILABILITY_STATES.includes(state)". -/
def _isValidAvailability (s : String) : Bool := VALID_AVAILABILITY_STATES.contains s

/-! ## The URL validator and its model of "new URL"

"_isValidUrl" calls the platform's WHATWG URL parser ("new URL(url)") and then
applies its own checks to the parsed components.  "parseURL" below models the
parser on the inputs this validator is specified against: absolute URLs with
a scheme, an authority for the special schemes, domain / IPv4 / bracketed
IPv6 hosts and an optional port.  Known simplifications, none of which affect
the properties proved about "_isValidUrl": octal/hex IPv4 numbers are treated
as plain decimal; IPv6 literals are recognized by a liberal shape check and
are not canonically compressed; percent-encoding, IDNA and dot-segment
normalization of paths are omitted (none can introduce or remove the "//"
substring the validator looks for); an empty query keeps its "?". -/

/-- ASCII letter. -/
def isAsciiAlpha (c : Char) : Bool := ('a' ≤ c && c ≤ 'z') || ('A' ≤ c && c ≤ 'Z')

/-- ASCII hex digit. -/
def isHexDigitCh (c : Char) : Bool :=
  isDigitCh c || ('a' ≤ c && c ≤ 'f') || ('A' ≤ c && c ≤ 'F')

/-- ASCII lowercasing, as the URL parser applies to schemes and hosts. -/
def toLowerCh (c : Char) : Char :=
  if 'A' ≤ c && c ≤ 'Z' then Char.ofNat (c.toNat + 32) else c

/-- Characters allowed after the first one in a scheme. -/
def isSchemeChar (c : Char) : Bool :=
  isAsciiAlpha c || isDigitCh c || c == '+' || c == '-' || c == '.'

/-- Accumulating phase of scheme parsing: scheme characters until a colon. -/
def parseSchemeAux : List Char → List Char → Option (List Char × List Char)
  | [], _ => none
  | c :: t, acc =>
    if c = ':' then some ((acc.reverse).map toLowerCh, t)
    else if isSchemeChar c then parseSchemeAux t (c :: acc)
    else none

/-- "scheme:" at the start of an absolute URL: an ASCII letter, then scheme
characters, then the colon; the scheme is lowercased. -/
def parseScheme : List Char → Option (List Char × List Char)
  | [] => none
  | c :: t => if isAsciiAlpha c then parseSchemeAux t [c] else none

/-- The special schemes of the URL Standard. -/
def specialSchemes : List (List Char) :=
  ["http".data, "https".data, "ws".data, "wss".data, "ftp".data, "file".data]

/-- Default ports of the special schemes. -/
def defaultPort (scheme : List Char) : Option Nat :=
  if scheme = "http".data then some 80
  else if scheme = "ws".data then some 80
  else if scheme = "https".data then some 443
  else if scheme = "wss".data then some 443
  else if scheme = "ftp".data then some 21
  else none

/-- After "scheme:" a special URL skips any run of slashes (forward or back). -/
def dropSlashes : List Char → List Char
  | [] => []
  | c :: t => if c = '/' ∨ c = '\\' then dropSlashes t else c :: t

/-- The authority runs up to the first '/', '\', '?' or '#'. -/
def spanAuthority : List Char → List Char × List Char
  | [] => ([], [])
  | c :: t =>
    if c = '/' ∨ c = '\\' ∨ c = '?' ∨ c = '#' then ([], c :: t)
    else
      match spanAuthority t with
      | (a, r) => (c :: a, r)

/-- Strip any userinfo: the host starts after the last '@' of the authority. -/
def hostPortPart (auth : List Char) : List Char :=
  if auth.contains '@' then ((auth.reverse).takeWhile (fun c => !(c == '@'))).reverse
  else auth

/-- Scan to the first occurrence of a stop character. -/
def spanUntil (stop : Char) : List Char → Option (List Char × List Char)
  | [] => none
  | c :: t =>
    if c = stop then some ([], t)
    else (spanUntil stop t).map (fun p => (c :: p.1, p.2))

/-- Split the host-and-port slice: a '['..']' IPv6 literal (flag true, the
core is the bracket contents) or an ordinary host cut at the first ':'; the
second component is the port slice when a colon is present. -/
def splitHostPort (hp : List Char) : Option ((Bool × List Char) × Option (List Char)) :=
  match hp with
  | '[' :: t =>
    match spanUntil ']' t with
    | none => none
    | some (inner, rest) =>
      match rest with
      | [] => some ((true, inner), none)
      | ':' :: p => some ((true, inner), some p)
      | _ => none
  | _ =>
    match spanUntil ':' hp with
    | none => some ((false, hp), none)
    | some (h, p) => some ((false, h), some p)

/-- Decimal digits of a bounded number (enough fuel for ports and IPv4). -/
def natToCharsFuel : Nat → Nat → List Char → List Char
  | 0, _, acc => acc
  | fuel + 1, n, acc =>
    if n = 0 then acc
    else natToCharsFuel fuel (n / 10) (Char.ofNat (n % 10 + 48) :: acc)

/-- Canonical decimal spelling of a number (as the URL serializer emits). -/
def natToChars (n : Nat) : List Char :=
  if n = 0 then ['0'] else natToCharsFuel 8 n []

/-- Characters this model admits in a non-bracketed host. -/
def isHostChar (c : Char) : Bool :=
  isAsciiAlpha c || isDigitCh c || c == '-' || c == '.' || c == '_'

/-- The IPv4 parser of the URL Standard (decimal numbers): at most four
dot-separated numbers, all but the last below 256, the last below
256^(5 - n); the host serializes as the canonical dotted quad. -/
def ipv4Parse (parts : List (List Char)) : Option (List Char) :=
  if parts.length = 0 ∨ 4 < parts.length then none
  else if !(parts.all (fun p => !(p.isEmpty) && p.all isDigitCh)) then none
  else
    match (parts.map digitsToNat).getLast? with
    | none => none
    | some lastV =>
      let initV := (parts.map digitsToNat).dropLast
      if initV.any (fun v => 256 ≤ v) then none
      else if 256 ^ (5 - parts.length) ≤ lastV then none
      else
        let v := (initV.foldl (fun acc x => acc * 256 + x) 0) * 256 ^ (5 - parts.length) + lastV
        some (natToChars (v / 16777216) ++ '.' :: natToChars (v / 65536 % 256) ++
          '.' :: natToChars (v / 256 % 256) ++ '.' :: natToChars (v % 256))

/-- Host parsing for non-bracketed hosts: check the character set, lowercase,
and run the IPv4 parser when the last label is numeric. -/
def parseHost (host : List Char) : Option (List Char) :=
  if host.isEmpty then none
  else if host.any (fun c => !(isHostChar c)) then none
  else
    let h := host.map toLowerCh
    let labels := splitOnCh '.' h
    let labels2 := if labels.getLast? = some [] then labels.dropLast else labels
    match labels2.getLast? with
    | none => none
    | some lastLab =>
      if !(lastLab.isEmpty) && lastLab.all isDigitCh then ipv4Parse labels2
      else some h

/-- A liberal recognizer for the inside of a bracketed IPv6 literal: hex
digits and colons, at least one colon, at most eight groups of at most four
hex digits.  (A superset of the valid literals; the validator re-checks the
shape with its own regular expression.) -/
def validIPv6 (inner : List Char) : Bool :=
  !(inner.isEmpty) && inner.all (fun c => isHexDigitCh c || c == ':') &&
  inner.contains ':' &&
  (splitOnCh ':' inner).length ≤ 8 &&
  (splitOnCh ':' inner).all (fun g => g.length ≤ 4)

/-- Host parsing, both shapes; returns the serialized hostname as the "URL"
object exposes it (brackets kept for IPv6). -/
def parseHostFull (isV6 : Bool) (core : List Char) : Option (List Char) :=
  if isV6 then
    if validIPv6 core then some ('[' :: core.map toLowerCh ++ [']']) else none
  else parseHost core

/-- Port parsing: digits only, at most 65535; an absent, empty or default
port is exposed as the empty string, anything else as its canonical decimal
spelling. -/
def parsePort (scheme : List Char) : Option (List Char) → Option (List Char)
  | none => some []
  | some pd =>
    if pd.isEmpty then some []
    else if pd.all isDigitCh then
      let v := digitsToNat pd
      if 65535 < v then none
      else if defaultPort scheme = some v then some [] else some (natToChars v)
    else none

/-- The path slice of the remainder: up to '?' or '#'. -/
def pathOf (rest : List Char) : List Char :=
  rest.takeWhile (fun c => !(c == '?') && !(c == '#'))

/-- The query slice of the remainder, '?' included, '#' excluded. -/
def searchOf (rest : List Char) : List Char :=
  match rest.dropWhile (fun c => !(c == '?') && !(c == '#')) with
  | '?' :: t => '?' :: t.takeWhile (fun c => !(c == '#'))
  | _ => []

/-- Pathname and search of a special URL from the part after the authority
(which is empty or starts with '/', '\', '?' or '#'); the pathname is at
least "/" and backslashes normalize to slashes. -/
def parsePathSearch (rem : List Char) : List Char × List Char :=
  match rem with
  | [] => (['/'], [])
  | '#' :: _ => (['/'], [])
  | '?' :: _ => (['/'], searchOf rem)
  | _ => ((pathOf rem).map (fun c => if c = '\\' then '/' else c), searchOf rem)

/-- The components of a parsed URL, as the JS "URL" object exposes them. -/
structure URLParts where
  protocol : List Char
  hostname : List Char
  port : List Char
  pathname : List Char
  search : List Char
deriving DecidableEq

/-- Model of "new URL(input)" (see the section comment for its scope):
returns none exactly where the constructor throws. -/
def parseURL (cs : List Char) : Option URLParts :=
  match parseScheme cs with
  | none => none
  | some (scheme, rest) =>
    if specialSchemes.contains scheme then
      match spanAuthority (dropSlashes rest) with
      | (auth, rem) =>
        match splitHostPort (hostPortPart auth) with
        | none => none
        | some ((isV6, core), portRaw) =>
          match parseHostFull isV6 core with
          | none => none
          | some host =>
            match parsePort scheme portRaw with
            | none => none
            | some port =>
              match parsePathSearch rem with
              | (path, search) => some ⟨scheme ++ [':'], host, port, path, search⟩
    else
      some ⟨scheme ++ [':'], [], [], pathOf rest, searchOf rest⟩

/-- The validator's own IPv4 shape test,
"/^(\d{1,3}\.){3}\d{1,3}$/": exactly four dot-separated groups of one to
three digits. -/
def ipv4RegexB (h : List Char) : Bool :=
  match splitOnCh '.' h with
  | [a, b, c, d] =>
    [a, b, c, d].all (fun p => decide (1 ≤ p.length) && decide (p.length ≤ 3) &&
      p.all isDigitCh)
  | _ => false

/-- The validator's own IPv6 shape test,
"/^(\[([0-9a-fA-F]{0,4}:){1,7}[0-9a-fA-F]{0,4}\])$/": brackets around two to
eight colon-separated groups of at most four hex digits. -/
def ipv6RegexB (h : List Char) : Bool :=
  (h.head? == some '[') && (h.getLast? == some ']') &&
  (decide (2 ≤ (splitOnCh ':' ((h.drop 1).dropLast)).length) &&
   decide ((splitOnCh ':' ((h.drop 1).dropLast)).length ≤ 8) &&
   (splitOnCh ':' ((h.drop 1).dropLast)).all (fun g => decide (g.length ≤ 4) &&
     g.all isHexDigitCh))

/-- "url.includes('//')". -/
def containsSS : List Char → Bool
  | '/' :: '/' :: _ => true
  | _ :: t => containsSS t
  | [] => false

/-- "_isValidUrl" (string branch): parse with "new URL" (failure means
false); require the http or https protocol; accept IP hosts after the range
re-check for IPv4 ("part >= 0" always holds for an unsigned digit group);
otherwise require at least two nonempty dot-separated labels without leading
or trailing hyphens, a TLD of length at least two that is not all digits, a
port in 1..65535 when present, and no '//' inside the path and query when
the raw input contains '//'. -/
def _isValidUrl (cs : List Char) : Bool :=
  match parseURL cs with
  | none => false
  | some u =>
    if !(u.protocol == "http:".data || u.protocol == "https:".data) then false
    else if ipv4RegexB u.hostname || ipv6RegexB u.hostname then
      if ipv4RegexB u.hostname then
        (splitOnCh '.' u.hostname).all (fun p => decide (digitsToNat p ≤ 255))
      else true
    else
      if u.port ≠ [] ∧ (digitsToNat u.port = 0 ∨ 65535 < digitsToNat u.port) then false
      else if containsSS cs && containsSS (u.pathname ++ u.search) then false
      else
        (decide (2 ≤ (splitOnCh '.' u.hostname).length) &&
          (splitOnCh '.' u.hostname).all (fun p => decide (0 < p.length) &&
            !(p.head? == some '-') && !(p.getLast? == some '-'))) &&
        (decide (2 ≤ ((splitOnCh '.' u.hostname).getLast?.getD []).length) &&
          !(decide (((splitOnCh '.' u.hostname).getLast?.getD []) ≠ []) &&
            ((splitOnCh '.' u.hostname).getLast?.getD []).all isDigitCh))

/-! ## The "typeof !== 'string'" guards

Each exported validator first throws a TypeError when its argument is not a
string, and otherwise runs a total Boolean body (the URL body catches the
parser's exception itself).  A JS argument is modelled by "JsValue" and a
possibly-throwing call by "Except": an ".error" is a thrown TypeError with
the source's message, an ".ok" is a normal return. -/

inductive JsValue where
  | str (s : String)
  | num (n : Int)
  | boolean (b : Bool)
  | nullV
  | undefinedV
deriving DecidableEq

/-- "typeof v === 'string'". -/
def JsValue.isString : JsValue → Bool
  | .str _ => true
  | _ => false

/-- "isValidUrl" as callable from JS (before memoization). -/
def isValidUrlJs : JsValue → Except String Bool
  | .str s => .ok (_isValidUrl s.data)
  | _ => .error "URL must be a string"

/-- "isValidCurrency" as callable from JS (before memoization). -/
def isValidCurrencyJs : JsValue → Except String Bool
  | .str s => .ok (_isValidCurrency s)
  | _ => .error "Currency code must be a string"

/-- "isValidAvailability" as callable from JS (before memoization). -/
def isValidAvailabilityJs : JsValue → Except String Bool
  | .str s => .ok (_isValidAvailability s)
  | _ => .error "Availability state must be a string"

/-- "isValidRating" as callable from JS (before memoization). -/
def isValidRatingJs : JsValue → Except String Bool
  | .str s => .ok (_isValidRating s.data)
  | _ => .error "Rating value must be a string"

/-- "isValidReviewCount" as callable from JS (before memoization). -/
def isValidReviewCountJs : JsValue → Except String Bool
  | .str s => .ok (_isValidReviewCount s.data)
  | _ => .error "Review count must be a string"

/-! ## "src/utils/schemaGenerators.ts" -- generateProductSchema

The generator calls the exported (memoized) validators; by cache
transparency (the value-equivalence part of claim C1) those return the same
Booleans as the underlying functions, which are used here directly. -/

/-- The typed errors of "src/utils/errors.ts", one constructor per class. -/
inductive SchemaError where
  | invalidUrl (url : String)
  | invalidCurrency (currency : String)
  | invalidAvailability (state : String)
  | invalidRating (rating : String)
  | invalidReviewCount (count : String)
  | missingRequiredField (field : String)
deriving DecidableEq

/-- "ProductConfig": every field an optional override. -/
structure ProductConfig where
  name : Option String := none
  description : Option String := none
  brandName : Option String := none
  category : Option String := none
  priceCurrency : Option String := none
  availability : Option String := none
  ratingValue : Option String := none
  reviewCount : Option String := none
deriving DecidableEq

/-- The "offers" object of the product schema. -/
structure Offer where
  availability : String
  priceCurrency : String
  sellerName : String
deriving DecidableEq

/-- The "aggregateRating" object of the product schema. -/
structure AggregateRating where
  ratingValue : String
  reviewCount : String
deriving DecidableEq

/-- The product schema object (the fixed "@context"/"@type" markers and the
brand wrapper are flattened into plain fields). -/
structure ProductSchemaR where
  name : String
  description : String
  brandName : String
  category : String
  offers : Offer
  aggregateRating : AggregateRating
deriving DecidableEq

/-- "config?.priceCurrency ?? 'USD'". -/
def currencyOf (config : Option ProductConfig) : String :=
  (config.bind (fun c => c.priceCurrency)).getD "USD"

/-- "config?.availability ?? 'https://schema.org/InStock'". -/
def availabilityOf (config : Option ProductConfig) : String :=
  (config.bind (fun c => c.availability)).getD "https://schema.org/InStock"

/-- "config?.ratingValue ?? '5'". -/
def ratingOf (config : Option ProductConfig) : String :=
  (config.bind (fun c => c.ratingValue)).getD "5"

/-- "config?.reviewCount ?? '50'". -/
def reviewCountOf (config : Option ProductConfig) : String :=
  (config.bind (fun c => c.reviewCount)).getD "50"

/-- "generateProductSchema(config?)": fill defaults, validate the currency,
availability, rating and review count in that order, throw the first
matching typed error (the Except error), and only on full success build the
schema object. -/
def generateProductSchema (config : Option ProductConfig) :
    Except SchemaError ProductSchemaR :=
  if !(_isValidCurrency (currencyOf config)) then
    .error (.invalidCurrency (currencyOf config))
  else if !(_isValidAvailability (availabilityOf config)) then
    .error (.invalidAvailability (availabilityOf config))
  else if !(_isValidRating (ratingOf config).data) then
    .error (.invalidRating (ratingOf config))
  else if !(_isValidReviewCount (reviewCountOf config).data) then
    .error (.invalidReviewCount (reviewCountOf config))
  else
    .ok {
      name := (config.bind (fun c => c.name)).getD "Premium Homemade Cat Food",
      description := (config.bind (fun c => c.description)).getD
        "Fresh, natural cat food made with chicken, potatoes, and carrots. No additives or preservatives.",
      brandName := (config.bind (fun c => c.brandName)).getD "Choji Store",
      category := (config.bind (fun c => c.category)).getD "Pet Food",
      offers := {
        availability := availabilityOf config,
        priceCurrency := currencyOf config,
        sellerName := (config.bind (fun c => c.brandName)).getD "Choji Store" },
      aggregateRating := {
        ratingValue := ratingOf config,
        reviewCount := reviewCountOf config } }

/-- A configuration carrying only the unsupported currency code "XXX". -/
def cfgXXX : ProductConfig := { priceCurrency := some "XXX" }

/-- A configuration whose four validated fields are all valid. -/
def cfgValidEUR : ProductConfig :=
  { priceCurrency := some "EUR"
    availability := some "https://schema.org/OutOfStock"
    ratingValue := some "4.75"
    reviewCount := some "12" }

/-! ## "src/utils/schemaCache.ts" -- the SchemaCache singleton

The cache maps "prefix:serializedConfig" keys to "{ data, timestamp, key }"
entries with the same five-minute TTL constant as the memoizer.  A JS
configuration object is modelled by its "JSON.stringify" image (an absent
argument by "none"): structurally equal configs stringify identically, so
they reach the same key by construction. -/

/-- A cache entry "{ data, timestamp, key }". -/
structure SchemaEntry (δ : Type) where
  data : δ
  timestamp : Nat
  key : String
deriving DecidableEq

/-- "generateKey(prefix, config)". -/
def generateKey (pre : String) (config : Option String) : String :=
  pre ++ ":" ++ config.getD "default"

/-- The state of the SchemaCache singleton. -/
abbrev SchemaCacheState (δ : Type) := List (String × SchemaEntry δ)

/-- "schemaCache.get(prefix, config)": a live entry returns its data and
leaves the cache unchanged; an expired entry is deleted and undefined is
returned; a missing key returns undefined. -/
def schemaCacheGet {δ : Type} (st : SchemaCacheState δ) (pre : String)
    (config : Option String) (now : Nat) : Option δ × SchemaCacheState δ :=
  match mapGet st (generateKey pre config) with
  | some e =>
    if now - e.timestamp < TTL then (some e.data, st)
    else (none, mapDelete st (generateKey pre config))
  | none => (none, st)

/-- "schemaCache.set(prefix, data, config)". -/
def schemaCacheSet {δ : Type} (st : SchemaCacheState δ) (pre : String) (d : δ)
    (config : Option String) (now : Nat) : SchemaCacheState δ :=
  mapSet st (generateKey pre config) ⟨d, now, generateKey pre config⟩

/-! ## Theorems -/

theorem mapGet_mem {κ δ : Type} [DecidableEq κ] {c : List (κ × δ)} {k : κ} {v : δ}
    (h : mapGet c k = some v) : (k, v) ∈ c := by
  unfold mapGet at h
  rcases hf : c.find? (fun p => p.1 = k) with _ | p
  · rw [hf] at h; exact absurd h (by simp)
  · rw [hf] at h
    have hm := List.mem_of_find?_eq_some hf
    have hp := List.find?_some hf
    simp only [decide_eq_true_eq] at hp
    rcases p with ⟨pk, pv⟩
    simp only [Option.map_some'] at h
    cases h
    simp only at hp
    rw [hp] at hm
    exact hm

theorem mapGet_eq_some_of_mem {κ δ : Type} [DecidableEq κ] {c : List (κ × δ)} {k : κ} {v : δ}
    (hnd : KeysNodup c) (h : (k, v) ∈ c) : mapGet c k = some v := by
  induction c with
  | nil => simp at h
  | cons p t ih =>
    unfold KeysNodup mapKeys at hnd
    simp only [List.map_cons, List.nodup_cons] at hnd
    rcases List.mem_cons.mp h with h1 | h1
    · subst h1
      unfold mapGet
      simp [List.find?]
    · have hk : p.1 ≠ k := by
        intro he
        exact hnd.1 (he ▸ (List.mem_map.mpr ⟨(k, v), h1, rfl⟩))
      unfold mapGet
      simp only [List.find?]
      rw [decide_eq_false hk]
      exact ih hnd.2 h1

theorem keysNodup_entry_unique {κ δ : Type} {c : List (κ × δ)} {k : κ} {v₁ v₂ : δ}
    (hnd : KeysNodup c) (h₁ : (k, v₁) ∈ c) (h₂ : (k, v₂) ∈ c) : v₁ = v₂ := by
  induction c with
  | nil => simp at h₁
  | cons p t ih =>
    obtain ⟨pk, pv⟩ := p
    unfold KeysNodup mapKeys at hnd
    simp only [List.map_cons, List.nodup_cons] at hnd
    rcases List.mem_cons.mp h₁ with ha | ha <;> rcases List.mem_cons.mp h₂ with hb | hb
    · exact congrArg Prod.snd (ha.trans hb.symm)
    · injection ha with e1 e2
      subst e1
      exact absurd (List.mem_map.mpr ⟨(k, v₂), hb, rfl⟩) hnd.1
    · injection hb with e1 e2
      subst e1
      exact absurd (List.mem_map.mpr ⟨(k, v₁), ha, rfl⟩) hnd.1
    · exact ih hnd.2 ha hb

theorem mapGet_mapSet_self {κ δ : Type} [DecidableEq κ] (c : List (κ × δ)) (k : κ) (v : δ) :
    mapGet (mapSet c k v) k = some v := by
  unfold mapSet
  by_cases hc : c.any (fun p => p.1 = k)
  · rw [if_pos hc]
    induction c with
    | nil => simp at hc
    | cons p t ih =>
      by_cases hp : p.1 = k
      · unfold mapGet
        rw [List.map_cons, if_pos hp, List.find?_cons_of_pos _ (by simp)]
        rfl
      · have hc' : t.any (fun p => p.1 = k) := by
          rcases List.any_eq_true.mp hc with ⟨q, hq, hqk⟩
          rcases List.mem_cons.mp hq with he | he
          · exact absurd (of_decide_eq_true (he ▸ hqk)) hp
          · exact List.any_eq_true.mpr ⟨q, he, hqk⟩
        unfold mapGet at ih ⊢
        rw [List.map_cons, if_neg hp, List.find?_cons_of_neg _ (by simpa using hp)]
        exact ih hc'
  · rw [if_neg hc]
    have hcc : ∀ p ∈ c, ¬ p.1 = k := by
      intro p hp he
      exact hc (List.any_eq_true.mpr ⟨p, hp, decide_eq_true he⟩)
    clear hc
    induction c with
    | nil => unfold mapGet; rw [List.nil_append, List.find?_cons_of_pos _ (by simp)]; rfl
    | cons p t ih =>
      unfold mapGet at ih ⊢
      rw [List.cons_append,
        List.find?_cons_of_neg _ (by simpa using hcc p (List.mem_cons_self p t))]
      exact ih (fun q hq => hcc q (List.mem_cons_of_mem p hq))

theorem mapGet_mapDelete_self {κ δ : Type} [DecidableEq κ] (c : List (κ × δ)) (k : κ) :
    mapGet (mapDelete c k) k = none := by
  unfold mapGet mapDelete
  rcases hf : (c.filter (fun p => p.1 ≠ k)).find? (fun p => p.1 = k) with _ | p
  · rw [hf]; rfl
  · have hm := List.mem_of_find?_eq_some hf
    have hp := List.find?_some hf
    simp only [decide_eq_true_eq] at hp
    have := List.of_mem_filter hm
    simp only [decide_eq_true_eq] at this
    exact absurd hp this

theorem length_mapSet {κ δ : Type} [DecidableEq κ] (c : List (κ × δ)) (k : κ) (v : δ) :
    (mapSet c k v).length = if c.any (fun p => p.1 = k) then c.length else c.length + 1 := by
  unfold mapSet
  by_cases hc : c.any (fun p => p.1 = k)
  · rw [if_pos hc, if_pos hc, List.length_map]
  · rw [if_neg hc, if_neg hc, List.length_append, List.length_singleton]

theorem mapKeys_mapSet_of_mem {κ δ : Type} [DecidableEq κ] {c : List (κ × δ)} {k : κ} (v : δ)
    (hc : c.any (fun p => p.1 = k)) : mapKeys (mapSet c k v) = mapKeys c := by
  unfold mapSet
  rw [if_pos hc]
  unfold mapKeys
  rw [List.map_map]
  apply List.map_congr_left
  intro p _
  by_cases hp : p.1 = k <;> simp [hp]

theorem keysNodup_mapSet {κ δ : Type} [DecidableEq κ] {c : List (κ × δ)} {k : κ} {v : δ}
    (hnd : KeysNodup c) : KeysNodup (mapSet c k v) := by
  by_cases hc : c.any (fun p => p.1 = k)
  · unfold KeysNodup
    rw [mapKeys_mapSet_of_mem v hc]
    exact hnd
  · unfold mapSet
    rw [if_neg hc]
    unfold KeysNodup mapKeys at hnd ⊢
    rw [List.map_append, List.nodup_append]
    refine ⟨hnd, List.nodup_singleton k, ?_⟩
    intro a ha hb
    simp only [List.map_cons, List.map_nil, List.mem_singleton] at hb
    subst hb
    rcases List.mem_map.mp ha with ⟨p, hp, hk⟩
    simp only [List.any_eq_true, decide_eq_true_eq] at hc
    exact hc ⟨p, hp, hk⟩

theorem keysNodup_of_sublist {κ δ : Type} {c c' : List (κ × δ)}
    (hs : List.Sublist c' c) (hnd : KeysNodup c) : KeysNodup c' :=
  List.Nodup.sublist (List.Sublist.map Prod.fst hs) hnd

theorem cleanup_sublist {α β : Type} (now : Nat) (c : MemoCache α β) :
    List.Sublist (cleanup now c) c :=
  List.filter_sublist c

theorem mapDelete_sublist {κ δ : Type} [DecidableEq κ] (c : List (κ × δ)) (k : κ) :
    List.Sublist (mapDelete c k) c :=
  List.filter_sublist c

theorem evictPhase_sublist {α β : Type} [DecidableEq α] (maxSize now : Nat)
    (c : MemoCache α β) : List.Sublist (evictPhase maxSize now c) c := by
  unfold evictPhase
  by_cases h1 : maxSize ≤ c.length
  · rw [if_pos h1]
    by_cases h2 : maxSize ≤ (cleanup now c).length
    · rw [if_pos h2]
      rcases hc : cleanup now c with _ | ⟨x, t⟩
      · exact List.nil_sublist c
      · exact List.Sublist.trans (mapDelete_sublist (x :: t) x.1) (hc ▸ cleanup_sublist now c)
    · rw [if_neg h2]
      exact cleanup_sublist now c
  · rw [if_neg h1]

theorem cacheConsistent_of_sublist {α β : Type} {fn : α → β} {c c' : MemoCache α β}
    (hs : List.Sublist c' c) (h : CacheConsistent fn c) : CacheConsistent fn c' :=
  fun p hp => h p (hs.mem hp)

theorem cacheConsistent_mapSet {α β : Type} [DecidableEq α] {fn : α → β} {c : MemoCache α β}
    (h : CacheConsistent fn c) (k : α) (t : Nat) :
    CacheConsistent fn (mapSet c k ⟨fn k, t⟩) := by
  intro p hp
  unfold mapSet at hp
  by_cases hc : c.any (fun q => q.1 = k)
  · rw [if_pos hc] at hp
    rcases List.mem_map.mp hp with ⟨q, hq, he⟩
    by_cases hqk : q.1 = k
    · rw [if_pos hqk] at he
      rw [← he]
    · rw [if_neg hqk] at he
      rw [← he]
      exact h q hq
  · rw [if_neg hc] at hp
    rcases List.mem_append.mp hp with hq | hq
    · exact h p hq
    · rcases List.mem_singleton.mp hq with rfl
      rfl

theorem cacheConsistent_memoCall {α β : Type} [DecidableEq α] {fn : α → β} {c : MemoCache α β}
    (h : CacheConsistent fn c) (m : Nat) (s : α) (now : Nat) :
    CacheConsistent fn (memoCall fn m c s now).cache := by
  have h2 := cacheConsistent_of_sublist (evictPhase_sublist m now c) h
  unfold memoCall
  rcases hg : mapGet (evictPhase m now c) s with _ | e
  · simp only [hg]
    exact cacheConsistent_mapSet h2 s now
  · simp only [hg]
    by_cases hl : now - e.timestamp < TTL
    · rw [if_pos hl]
      exact h2
    · rw [if_neg hl]
      exact cacheConsistent_mapSet h2 s now

theorem cacheConsistent_runCalls {α β : Type} [DecidableEq α] (fn : α → β) (m : Nat)
    (calls : List (α × Nat)) : CacheConsistent fn (runCalls fn m calls) := by
  have aux : ∀ (cs : List (α × Nat)) (c : MemoCache α β), CacheConsistent fn c →
      CacheConsistent fn (cs.foldl (fun c p => (memoCall fn m c p.1 p.2).cache) c) := by
    intro cs
    induction cs with
    | nil => intro c hc; exact hc
    | cons p t ih =>
      intro c hc
      exact ih _ (cacheConsistent_memoCall hc m p.1 p.2)
  exact aux calls [] (fun p hp => absurd hp (List.not_mem_nil p))

theorem memoCall_value_eq {α β : Type} [DecidableEq α] {fn : α → β} {c : MemoCache α β}
    (h : CacheConsistent fn c) (m : Nat) (s : α) (now : Nat) :
    (memoCall fn m c s now).value = fn s := by
  have h2 := cacheConsistent_of_sublist (evictPhase_sublist m now c) h
  unfold memoCall
  rcases hg : mapGet (evictPhase m now c) s with _ | e
  · simp only [hg]
  · simp only [hg]
    by_cases hl : now - e.timestamp < TTL
    · rw [if_pos hl]
      exact h2 _ (mapGet_mem hg)
    · rw [if_neg hl]

theorem length_mapSet_le {κ δ : Type} [DecidableEq κ] (c : List (κ × δ)) (k : κ) (v : δ) :
    (mapSet c k v).length ≤ c.length + 1 := by
  rw [length_mapSet]
  split <;> omega

theorem length_mapDelete_head {κ δ : Type} [DecidableEq κ] (x : κ × δ) (t : List (κ × δ)) :
    (mapDelete (x :: t) x.1).length ≤ t.length := by
  unfold mapDelete
  rw [List.filter_cons, if_neg (by simp)]
  exact List.length_filter_le _ t

theorem length_evictPhase_lt {α β : Type} [DecidableEq α] {m now : Nat} {c : MemoCache α β}
    (hm : 1 ≤ m) (hc : c.length ≤ m) : (evictPhase m now c).length < m := by
  unfold evictPhase
  by_cases h1 : m ≤ c.length
  · rw [if_pos h1]
    have hcl : (cleanup now c).length ≤ c.length := (cleanup_sublist now c).length_le
    by_cases h2 : m ≤ (cleanup now c).length
    · rw [if_pos h2]
      rcases hcc : cleanup now c with _ | ⟨x, t⟩
      · rw [hcc] at h2
        simp only [List.length_nil] at h2
        omega
      · show (mapDelete (x :: t) x.1).length < m
        have hd := length_mapDelete_head x t
        rw [hcc] at hcl
        simp only [List.length_cons] at hcl
        omega
    · rw [if_neg h2]
      omega
  · rw [if_neg h1]
    omega

theorem length_memoCall_le {α β : Type} [DecidableEq α] (fn : α → β) {m : Nat} (hm : 1 ≤ m)
    {c : MemoCache α β} (hc : c.length ≤ m) (s : α) (now : Nat) :
    (memoCall fn m c s now).cache.length ≤ m := by
  have hev := @length_evictPhase_lt α β _ m now c hm hc
  unfold memoCall
  rcases hg : mapGet (evictPhase m now c) s with _ | e
  · simp only [hg]
    show (mapSet (evictPhase m now c) s ⟨fn s, now⟩).length ≤ m
    have := length_mapSet_le (evictPhase m now c) s (⟨fn s, now⟩ : MemoEntry β)
    omega
  · simp only [hg]
    by_cases hl : now - e.timestamp < TTL
    · rw [if_pos hl]
      show (evictPhase m now c).length ≤ m
      omega
    · rw [if_neg hl]
      show (mapSet (evictPhase m now c) s ⟨fn s, now⟩).length ≤ m
      have := length_mapSet_le (evictPhase m now c) s (⟨fn s, now⟩ : MemoEntry β)
      omega

/-- Claim C1 (amended).  The wrapper returned by "memoizeValidator(fn, maxSize)"
is observationally equivalent to "fn" in its return value for EVERY maxSize:
every call, from the empty cache or from any cache reachable by earlier
calls, returns "fn s" (first conjunct, no hypothesis), and a first call from
the fresh cache computes "fn s" (invoked = true).  The no-re-invocation
guarantee holds under "maxSize ≥ 2" (last conjunct): an immediately
following second call with the same "s" within the TTL window returns the
stored value without invoking "fn" again.  (For "maxSize ≤ 1" the size-bound
sweep, which runs before the lookup, evicts the key's own live entry and
"fn" is re-invoked even though the value still equals "fn s"; see the
counterexample.) -/
theorem c1_memoize_cache_transparency {β : Type} (fn : String → β) (maxSize : Nat)
    (s : String) (t₁ t₂ : Nat) (calls : List (String × Nat)) :
    (memoCall fn maxSize (runCalls fn maxSize calls) s t₁).value = fn s ∧
    (memoCall fn maxSize [] s t₁).value = fn s ∧
    (memoCall fn maxSize [] s t₁).invoked = true ∧
    (2 ≤ maxSize → t₂ - t₁ < TTL →
      (memoCall fn maxSize (memoCall fn maxSize [] s t₁).cache s t₂).value = fn s ∧
      (memoCall fn maxSize (memoCall fn maxSize [] s t₁).cache s t₂).invoked = false) := by
  have hev0 : evictPhase maxSize t₁ ([] : MemoCache String β) = [] := by
    unfold evictPhase
    rw [show cleanup t₁ ([] : MemoCache String β) = [] from rfl]
    split
    · split
      · rfl
      · rfl
    · rfl
  have h1 : memoCall fn maxSize ([] : MemoCache String β) s t₁ =
      ⟨fn s, [(s, ⟨fn s, t₁⟩)], true⟩ := by
    unfold memoCall
    rw [hev0]
    rfl
  refine ⟨memoCall_value_eq (cacheConsistent_runCalls fn maxSize calls) maxSize s t₁,
    ?_, ?_, ?_⟩
  · rw [h1]
  · rw [h1]
  · intro hm ht
    have hget : mapGet [(s, (⟨fn s, t₁⟩ : MemoEntry β))] s = some ⟨fn s, t₁⟩ := by
      have h := mapGet_mapSet_self ([] : MemoCache String β) s (⟨fn s, t₁⟩ : MemoEntry β)
      unfold mapSet at h
      simpa using h
    have hno1 : ¬ (maxSize ≤ [(s, (⟨fn s, t₁⟩ : MemoEntry β))].length) := by
      simp only [List.length_singleton]
      omega
    have h2 : memoCall fn maxSize [(s, (⟨fn s, t₁⟩ : MemoEntry β))] s t₂ =
        ⟨fn s, [(s, ⟨fn s, t₁⟩)], false⟩ := by
      unfold memoCall evictPhase
      rw [if_neg hno1, hget]
      show (if t₂ - t₁ < TTL then (⟨fn s, [(s, ⟨fn s, t₁⟩)], false⟩ : MemoResult String β)
          else ⟨fn s, mapSet [(s, ⟨fn s, t₁⟩)] s ⟨fn s, t₂⟩, true⟩) =
        ⟨fn s, [(s, ⟨fn s, t₁⟩)], false⟩
      rw [if_pos ht]
    constructor
    · rw [h1]
      show (memoCall fn maxSize [(s, ⟨fn s, t₁⟩)] s t₂).value = fn s
      rw [h2]
    · rw [h1]
      show (memoCall fn maxSize [(s, ⟨fn s, t₁⟩)] s t₂).invoked = false
      rw [h2]

/-- Witness for C1 at concrete inputs: maxSize 2, key "a", times 0 and 1 for
the no-re-invocation part (its two hypotheses discharged concretely); and,
for the unconditional value-equivalence conjunct, also maxSize 1 on the
trace "a" at time 0 then "a" again at time 1 -- the very trace on which the
counterexample shows "fn" is re-invoked, the returned value still being
"fn a". -/
theorem c1_memoize_cache_transparency_witness :
    ((memoCall (fun _ => true) 2 (runCalls (fun (_ : String) => true) 2 []) "a" 0).value = true ∧
     (memoCall (fun (_ : String) => true) 2 [] "a" 0).value = true ∧
     (memoCall (fun (_ : String) => true) 2 [] "a" 0).invoked = true ∧
     (2 ≤ 2 ∧ (1 : Nat) - 0 < TTL ∧
      (memoCall (fun _ => true) 2 (memoCall (fun (_ : String) => true) 2 [] "a" 0).cache "a" 1).value = true ∧
      (memoCall (fun _ => true) 2 (memoCall (fun (_ : String) => true) 2 [] "a" 0).cache "a" 1).invoked = false)) ∧
    (memoCall (fun _ => true) 1 (runCalls (fun (_ : String) => true) 1 [("a", 0)]) "a" 1).value
      = true :=
  have h := c1_memoize_cache_transparency (fun _ => true) 2 "a" 0 1 []
  have h1 := c1_memoize_cache_transparency (fun _ => true) 1 "a" 1 1 [("a", 0)]
  ⟨⟨h.1, h.2.1, h.2.2.1, by decide, by decide,
    (h.2.2.2 (by decide) (by decide)).1, (h.2.2.2 (by decide) (by decide)).2⟩,
   h1.1⟩

/-- Counterexample to C1 as stated: with "maxSize = 1" a second call with the
same key, one millisecond later (well within the TTL), re-invokes "fn": the
size-bound block runs before the lookup, the cache is at capacity, the
cleanup removes nothing (the entry is fresh), so "entries[0]" -- the very
entry for this key -- is evicted and "fn" is invoked again (the returned
value nevertheless still equals "fn" at the key). -/
theorem c1_memoize_reinvocation_counterexample :
    (memoCall (fun _ => true) 1 (memoCall (fun (_ : String) => true) 1 [] "a" 0).cache "a" 1).invoked
        = true ∧
      (memoCall (fun _ => true) 1 (memoCall (fun (_ : String) => true) 1 [] "a" 0).cache "a" 1).value
        = true ∧
      (1 : Nat) - 0 < TTL := by
  refine ⟨by decide, by decide, by decide⟩

/-- Claim C2 (amended).  For "maxSize ≥ 1" the cache of a function wrapped by
"memoizeValidator(fn, maxSize)" never holds more than "maxSize" entries over
any sequence of calls (first conjunct).  When the size-bound block runs on a
full cache (size = maxSize): every entry strictly older than the TTL is
removed by the sweep; if the sweep leaves the cache still at capacity,
exactly the oldest entry by insertion order (the head, FIFO not LRU) is
dropped; and if the sweep made room, nothing else is evicted.  ("maxSize = 0"
is excluded: see the counterexample, where the cache holds one entry.) -/
theorem c2_memoize_eviction_bound {β : Type} (fn : String → β) (maxSize : Nat)
    (hm : 1 ≤ maxSize) :
    (∀ calls : List (String × Nat), (runCalls fn maxSize calls).length ≤ maxSize) ∧
    (∀ (c : MemoCache String β) (now : Nat), KeysNodup c → c.length = maxSize →
      (∀ p ∈ c, TTL < now - p.2.timestamp → p ∉ evictPhase maxSize now c) ∧
      ((cleanup now c).length = maxSize → evictPhase maxSize now c = (cleanup now c).tail) ∧
      ((cleanup now c).length < maxSize → evictPhase maxSize now c = cleanup now c)) := by
  constructor
  · intro calls
    have aux : ∀ (cs : List (String × Nat)) (c : MemoCache String β), c.length ≤ maxSize →
        (cs.foldl (fun c p => (memoCall fn maxSize c p.1 p.2).cache) c).length ≤ maxSize := by
      intro cs
      induction cs with
      | nil => intro c hc; exact hc
      | cons p t ih =>
        intro c hc
        exact ih _ (length_memoCall_le fn hm hc p.1 p.2)
    exact aux calls [] (by simp)
  · intro c now hnd hlen
    have hfull : maxSize ≤ c.length := le_of_eq hlen.symm
    refine ⟨?_, ?_, ?_⟩
    · intro p hp hexp hmem
      have hp1 : p ∈ cleanup now c := by
        have hs : List.Sublist (evictPhase maxSize now c) c := evictPhase_sublist maxSize now c
        unfold evictPhase at hmem
        rw [if_pos hfull] at hmem
        by_cases h2 : maxSize ≤ (cleanup now c).length
        · rw [if_pos h2] at hmem
          rcases hcc : cleanup now c with _ | ⟨x, t⟩
          · rw [hcc] at hmem
            simp at hmem
          · rw [hcc] at hmem
            have hmem2 : p ∈ mapDelete (x :: t) x.1 := hmem
            exact (mapDelete_sublist (x :: t) x.1).mem hmem2
        · rw [if_neg h2] at hmem
          exact hmem
      have := List.of_mem_filter hp1
      simp only [decide_eq_true_eq] at this
      exact this hexp
    · intro heq
      have h2 : maxSize ≤ (cleanup now c).length := le_of_eq heq.symm
      unfold evictPhase
      rw [if_pos hfull, if_pos h2]
      rcases hcc : cleanup now c with _ | ⟨x, t⟩
      · rw [hcc] at heq
        simp only [List.length_nil] at heq
        omega
      · show mapDelete (x :: t) x.1 = (x :: t).tail
        have hndc : KeysNodup (x :: t) :=
          keysNodup_of_sublist (hcc ▸ cleanup_sublist now c) hnd
        unfold KeysNodup mapKeys at hndc
        simp only [List.map_cons, List.nodup_cons] at hndc
        unfold mapDelete
        rw [List.filter_cons, if_neg (by simp)]
        show t.filter (fun p => p.1 ≠ x.1) = t
        rw [List.filter_eq_self]
        intro p hp
        simp only [decide_eq_true_eq]
        intro he
        exact hndc.1 (List.mem_map.mpr ⟨p, hp, he⟩)
    · intro hlt
      unfold evictPhase
      rw [if_pos hfull, if_neg (by omega)]

/-- Witness for C2 at concrete inputs: maxSize 1, two distinct keys inserted,
and a full one-entry cache whose entry has expired before the sweep. -/
theorem c2_memoize_eviction_bound_witness :
    ((runCalls (fun (_ : String) => true) 1 [("a", 0), ("b", 3)]).length ≤ 1) ∧
    (("a", (⟨true, 0⟩ : MemoEntry Bool)) ∉
      evictPhase 1 (TTL + 1) [("a", (⟨true, 0⟩ : MemoEntry Bool))]) := by
  constructor
  · exact (c2_memoize_eviction_bound (fun _ => true) 1 (by decide)).1 [("a", 0), ("b", 3)]
  · exact ((c2_memoize_eviction_bound (fun _ => true) 1 (by decide)).2
      [("a", ⟨true, 0⟩)] (TTL + 1) (by decide) (by decide)).1
      ("a", ⟨true, 0⟩) (by simp) (by decide)

/-- Counterexample to C2 as stated: with "maxSize = 0" a single call leaves
one entry in the cache, exceeding the configured maximum size (the
"entries[0]" deletion is guarded by "entries.length > 0", so an empty cache
evicts nothing and the new entry is stored regardless). -/
theorem c2_memoize_size_counterexample :
    ¬ ((runCalls (fun (_ : String) => true) 0 [("a", 0)]).length ≤ 0) := by
  decide

/-- Claim C3 (confirmed).  A stale cache entry is never served: if the entry
stored under the call's key has age "now - timestamp ≥ TTL", the memoized
call invokes the underlying function, returns its fresh result, and leaves
the cache holding the fresh value with the fresh timestamp under that key. -/
theorem c3_memoize_ttl_expiry {β : Type} (fn : String → β) (maxSize : Nat)
    (c : MemoCache String β) (s : String) (now : Nat) (e : MemoEntry β)
    (hnd : KeysNodup c) (hget : mapGet c s = some e)
    (hstale : TTL ≤ now - e.timestamp) :
    (memoCall fn maxSize c s now).invoked = true ∧
    (memoCall fn maxSize c s now).value = fn s ∧
    mapGet (memoCall fn maxSize c s now).cache s = some ⟨fn s, now⟩ := by
  have hs2 := evictPhase_sublist maxSize now c
  have hred : memoCall fn maxSize c s now =
      ⟨fn s, mapSet (evictPhase maxSize now c) s ⟨fn s, now⟩, true⟩ := by
    unfold memoCall
    rcases hg2 : mapGet (evictPhase maxSize now c) s with _ | e2
    · rfl
    · have he : e2 = e :=
        keysNodup_entry_unique hnd (hs2.mem (mapGet_mem hg2)) (mapGet_mem hget)
      rw [he]
      exact if_neg (by omega)
  rw [hred]
  exact ⟨rfl, rfl, mapGet_mapSet_self _ _ _⟩

/-- Witness for C3 at concrete inputs: a one-entry cache whose entry is aged
exactly TTL at call time. -/
theorem c3_memoize_ttl_expiry_witness :
    KeysNodup [("a", (⟨false, 0⟩ : MemoEntry Bool))] ∧
    ((memoCall (fun _ => true) 100 [("a", (⟨false, 0⟩ : MemoEntry Bool))] "a" TTL).invoked = true ∧
     (memoCall (fun _ => true) 100 [("a", (⟨false, 0⟩ : MemoEntry Bool))] "a" TTL).value = true ∧
     mapGet (memoCall (fun _ => true) 100 [("a", (⟨false, 0⟩ : MemoEntry Bool))] "a" TTL).cache "a"
       = some ⟨true, TTL⟩) :=
  ⟨by decide,
    c3_memoize_ttl_expiry (fun _ => true) 100 [("a", ⟨false, 0⟩)] "a" TTL ⟨false, 0⟩
      (by decide) (by decide) (by decide)⟩

theorem splitOnCh_cons (sep c : Char) (t : List Char) :
    splitOnCh sep (c :: t) =
      if c = sep then [] :: splitOnCh sep t
      else
        match splitOnCh sep t with
        | [] => [[c]]
        | a :: rest => (c :: a) :: rest := rfl

theorem splitOnCh_of_not_mem (sep : Char) {cs : List Char} (h : sep ∉ cs) :
    splitOnCh sep cs = [cs] := by
  induction cs with
  | nil => rfl
  | cons c t ih =>
    have hcs : ¬ (c = sep) := fun he => h (he ▸ List.mem_cons_self c t)
    have hts : sep ∉ t := fun ht => h (List.mem_cons_of_mem c ht)
    rw [splitOnCh_cons, if_neg hcs, ih hts]

theorem splitOnCh_append_sep (sep : Char) {a : List Char} (b : List Char) (h : sep ∉ a) :
    splitOnCh sep (a ++ sep :: b) = a :: splitOnCh sep b := by
  induction a with
  | nil =>
    show splitOnCh sep (sep :: b) = [] :: splitOnCh sep b
    rw [splitOnCh_cons, if_pos rfl]
  | cons c t ih =>
    have hcs : ¬ (c = sep) := fun he => h (he ▸ List.mem_cons_self c t)
    have hts : sep ∉ t := fun ht => h (List.mem_cons_of_mem c ht)
    show splitOnCh sep (c :: (t ++ sep :: b)) = (c :: t) :: splitOnCh sep b
    rw [splitOnCh_cons, if_neg hcs, ih hts]

theorem count_eq_one_split {sep : Char} {cs : List Char} (h : cs.count sep = 1) :
    ∃ a b, cs = a ++ sep :: b ∧ sep ∉ a ∧ sep ∉ b := by
  induction cs with
  | nil => simp at h
  | cons c t ih =>
    by_cases hc : c = sep
    · subst hc
      rw [List.count_cons_self] at h
      have ht : t.count c = 0 := by omega
      exact ⟨[], t, rfl, by simp, List.count_eq_zero.mp ht⟩
    · have hbe : (c == sep) = false := beq_eq_false_iff_ne.mpr hc
      rw [List.count_cons, hbe] at h
      simp only [if_false, Bool.false_eq_true, add_zero] at h
      rcases ih h with ⟨a, b, he, ha, hb⟩
      refine ⟨c :: a, b, by rw [he, List.cons_append], ?_, hb⟩
      intro hm
      rcases List.mem_cons.mp hm with h1 | h1
      · exact hc h1.symm
      · exact ha h1

theorem chars_of_not_any {cs : List Char}
    (h : ¬ (cs.any (fun c => !(isDigitCh c || c == '.')) = true)) :
    ∀ c ∈ cs, isDigitCh c = true ∨ c = '.' := by
  intro c hc
  by_contra hcon
  push_neg at hcon
  apply h
  refine List.any_eq_true.mpr ⟨c, hc, ?_⟩
  have h1 : isDigitCh c = false := by simpa using hcon.1
  have h2 : (c == '.') = false := beq_eq_false_iff_ne.mpr hcon.2
  rw [h1, h2]
  rfl

theorem dot_not_digit : isDigitCh '.' = false := by decide

theorem digit_ne_dot {c : Char} (h : isDigitCh c = true) : c ≠ '.' := by
  intro he
  rw [he] at h
  exact absurd h (by decide)

theorem rating_forward {cs : List Char} (h : _isValidRating cs = true) : RatingSpec cs := by
  unfold _isValidRating at h
  split_ifs at h with h1 h2 h3 h4 h5
  have hchars := chars_of_not_any h1
  rcases hp : parseFloatDec cs with _ | d
  · rw [hp] at h
    simp at h
  · rw [hp] at h
    have h' : (if decide (d.mant < 0) || decide (5 * 10 ^ d.exp < d.mant) then false
        else match splitOnCh '.' cs with
          | _ :: frac :: _ =>
            if 2 < frac.length then false
            else decide (frac = ['0'] ∨ frac = ['2', '5'] ∨ frac = ['5'] ∨ frac = ['7', '5'])
          | _ => true) = true := h
    clear h
    split_ifs at h' with h6
    have hle : d.mant ≤ 5 * 10 ^ d.exp := by
      simp only [Bool.or_eq_true, decide_eq_true_eq, not_or] at h6
      omega
    have hcount : cs.count '.' = 0 ∨ cs.count '.' = 1 := by omega
    rcases hcount with hc0 | hc1
    · -- no decimal point: the left disjunct of the specification
      have hnotmem : '.' ∉ cs := List.count_eq_zero.mp hc0
      have hsplit : splitOnCh '.' cs = [cs] := splitOnCh_of_not_mem '.' hnotmem
      have hemp : cs ≠ [] := by
        intro he
        subst he
        rw [show parseFloatDec [] = none from rfl] at hp
        exact absurd hp (by simp)
      have hpd : parseFloatDec cs = some ⟨digitsToNat cs, 0⟩ := by
        unfold parseFloatDec
        rw [hsplit]
        show (if cs = [] then (none : Option DecNum)
            else some (⟨digitsToNat cs, 0⟩ : DecNum)) = some (⟨digitsToNat cs, 0⟩ : DecNum)
        rw [if_neg hemp]
      have hd : d = ⟨digitsToNat cs, 0⟩ := Option.some.inj (hp.symm.trans hpd)
      left
      refine ⟨hemp, ?_, ?_, ?_⟩
      · intro c hcm
        rcases hchars c hcm with hx | hx
        · exact hx
        · exact absurd (hx ▸ hcm) hnotmem
      · rcases cs with _ | ⟨c0, _ | ⟨c1, rest⟩⟩
        · rfl
        · rfl
        · show (!(c0 == '0')) = true
          by_cases hc0' : c0 = '0'
          · subst hc0'
            have hc1d : isDigitCh c1 = true := by
              rcases hchars c1 (by simp) with hx | hx
              · exact hx
              · subst hx
                exact absurd (show ('.' : Char) ∈ '0' :: '.' :: rest by simp) hnotmem
            exact absurd (by simp [leadZeroDigit, hc1d]) h4
          · simp [hc0']
      · rw [hd] at hle
        simpa using hle
    · -- one decimal point: the right disjunct of the specification
      rcases count_eq_one_split hc1 with ⟨a, b, hcs, hna, hnb⟩
      subst hcs
      have hsplit : splitOnCh '.' (a ++ '.' :: b) = [a, b] := by
        rw [splitOnCh_append_sep '.' b hna, splitOnCh_of_not_mem '.' hnb]
      have hane : a ≠ [] := by
        intro he
        subst he
        exact h2 (Or.inl (by simp))
      have hbne : b ≠ [] := by
        intro he
        subst he
        exact h2 (Or.inr (List.getLast?_concat a))
      have hdiga : ∀ c ∈ a, isDigitCh c = true := by
        intro c hcm
        rcases hchars c (List.mem_append_left _ hcm) with hx | hx
        · exact hx
        · exact absurd (hx ▸ hcm) hna
      have hdigb : ∀ c ∈ b, isDigitCh c = true := by
        intro c hcm
        rcases hchars c (List.mem_append_right _ (List.mem_cons_of_mem '.' hcm)) with hx | hx
        · exact hx
        · exact absurd (hx ▸ hcm) hnb
      have hpd : parseFloatDec (a ++ '.' :: b) =
          some ⟨digitsToNat a * 10 ^ b.length + digitsToNat b, b.length⟩ := by
        unfold parseFloatDec
        rw [hsplit]
        show (if a = [] ∧ b = [] then (none : Option DecNum)
            else some (⟨digitsToNat a * 10 ^ b.length + digitsToNat b, b.length⟩ : DecNum)) =
          some (⟨digitsToNat a * 10 ^ b.length + digitsToNat b, b.length⟩ : DecNum)
        rw [if_neg (fun hcon => hane hcon.1)]
      have hd : d = ⟨digitsToNat a * 10 ^ b.length + digitsToNat b, b.length⟩ :=
        Option.some.inj (hp.symm.trans hpd)
      rw [hsplit] at h'
      have h'' : (if 2 < b.length then false
          else decide (b = ['0'] ∨ b = ['2', '5'] ∨ b = ['5'] ∨ b = ['7', '5'])) = true := h'
      clear h'
      split_ifs at h'' with h7
      have hwl := of_decide_eq_true h''
      right
      refine ⟨a, b, rfl, hane, hbne, hdiga, hdigb, ?_, hwl, ?_⟩
      · rcases a with _ | ⟨a0, _ | ⟨a1, arest⟩⟩
        · exact absurd rfl hane
        · rfl
        · show (!(a0 == '0')) = true
          by_cases ha0 : a0 = '0'
          · subst ha0
            have ha1d : isDigitCh a1 = true := hdiga a1 (by simp)
            exact absurd (by simp [leadZeroDigit, ha1d]) h4
          · simp [ha0]
      · rw [hd] at hle
        simpa using hle

theorem mem_of_containsCh {l : List Char} {c : Char} (h : l.contains c = true) : c ∈ l := by
  rw [List.contains_eq_any_beq] at h
  rcases List.any_eq_true.mp h with ⟨x, hx, he⟩
  exact (eq_of_beq he).symm ▸ hx

theorem space_not_digit : isDigitCh ' ' = false := by decide

theorem leadZeroDigit_eq_false_of_digits {cs : List Char}
    (hnlz : noLeadingZero cs = true) : leadZeroDigit cs = false := by
  rcases cs with _ | ⟨c0, _ | ⟨c1, rest⟩⟩
  · rfl
  · rfl
  · show (c0 == '0' && isDigitCh c1) = false
    have hf : (c0 == '0') = false := by
      have h' : (!(c0 == '0')) = true := hnlz
      simpa using h'
    rw [hf, Bool.false_and]

theorem leadZeroDigit_append_dot {int : List Char} (frac : List Char) (hine : int ≠ [])
    (hnlz : noLeadingZero int = true) :
    leadZeroDigit (int ++ '.' :: frac) = false := by
  rcases int with _ | ⟨i0, _ | ⟨i1, irest⟩⟩
  · exact absurd rfl hine
  · show (i0 == '0' && isDigitCh '.') = false
    rw [dot_not_digit, Bool.and_false]
  · show (i0 == '0' && isDigitCh i1) = false
    have hf : (i0 == '0') = false := by
      have h' : (!(i0 == '0')) = true := hnlz
      simpa using h'
    rw [hf, Bool.false_and]

theorem rating_backward {cs : List Char} (hs : RatingSpec cs) : _isValidRating cs = true := by
  unfold _isValidRating
  rcases hs with ⟨hne, hdig, hnlz, hval⟩ | ⟨int, frac, rfl, hine, hfne, hdigi, hdigf, hnlz, hwl, hval⟩
  · -- integer-only numeral
    have hnotdot : '.' ∉ cs := fun hm => absurd (hdig '.' hm) (by decide)
    have hany : ¬ (cs.any (fun c => !(isDigitCh c || c == '.')) = true) := by
      intro ha
      rcases List.any_eq_true.mp ha with ⟨c, hc, hpc⟩
      rw [hdig c hc] at hpc
      simp at hpc
    rw [if_neg hany]
    have hhead : ¬ (cs.head? = some '.' ∨ cs.getLast? = some '.') := by
      rintro (hh | hh)
      · rcases cs with _ | ⟨c0, t⟩
        · simp at hh
        · rw [List.head?_cons] at hh
          injection hh with he
          subst he
          exact absurd (hdig '.' (by simp)) (by decide)
      · exact absurd (hdig '.' (List.mem_of_getLast?_eq_some hh)) (by decide)
    rw [if_neg hhead]
    have hcnt : ¬ (1 < cs.count '.') := by
      rw [List.count_eq_zero.mpr hnotdot]
      omega
    rw [if_neg hcnt]
    have hlz : ¬ (leadZeroDigit cs = true) := by
      rw [leadZeroDigit_eq_false_of_digits hnlz]
      decide
    rw [if_neg hlz]
    have hsp : ¬ (cs.contains ' ' = true) := by
      intro hc
      exact absurd (hdig ' ' (mem_of_containsCh hc)) (by decide)
    rw [if_neg hsp]
    have hsplit : splitOnCh '.' cs = [cs] := splitOnCh_of_not_mem '.' hnotdot
    have hpd : parseFloatDec cs = some ⟨digitsToNat cs, 0⟩ := by
      unfold parseFloatDec
      rw [hsplit]
      show (if cs = [] then (none : Option DecNum)
          else some (⟨digitsToNat cs, 0⟩ : DecNum)) = some (⟨digitsToNat cs, 0⟩ : DecNum)
      rw [if_neg hne]
    rw [hpd]
    show (if decide (digitsToNat cs < 0) || decide (5 * 10 ^ (0 : Nat) < digitsToNat cs) then false
        else match splitOnCh '.' cs with
          | _ :: frac :: _ =>
            if 2 < frac.length then false
            else decide (frac = ['0'] ∨ frac = ['2', '5'] ∨ frac = ['5'] ∨ frac = ['7', '5'])
          | _ => true) = true
    rw [if_neg (by
      simp only [Bool.or_eq_true, decide_eq_true_eq, not_or]
      exact ⟨by omega, by
        rw [pow_zero, mul_one]
        omega⟩)]
    rw [hsplit]
  · -- numeral with a fractional part
    have hany : ¬ ((int ++ '.' :: frac).any (fun c => !(isDigitCh c || c == '.')) = true) := by
      intro ha
      rcases List.any_eq_true.mp ha with ⟨c, hc, hpc⟩
      rcases List.mem_append.mp hc with hc1 | hc1
      · rw [hdigi c hc1] at hpc
        simp at hpc
      · rcases List.mem_cons.mp hc1 with hc2 | hc2
        · subst hc2
          simp at hpc
        · rw [hdigf c hc2] at hpc
          simp at hpc
    rw [if_neg hany]
    have hhead : ¬ ((int ++ '.' :: frac).head? = some '.' ∨
        (int ++ '.' :: frac).getLast? = some '.') := by
      rintro (hh | hh)
      · rcases int with _ | ⟨i0, it⟩
        · exact absurd rfl hine
        · rw [List.cons_append, List.head?_cons] at hh
          injection hh with he
          subst he
          exact absurd (hdigi '.' (by simp)) (by decide)
      · rw [List.getLast?_append_of_ne_nil int (by simp)] at hh
        have hh2 : frac.getLast? = some '.' := by
          rcases frac with _ | ⟨f0, ft⟩
          · exact absurd rfl hfne
          · have hx : (['.'] ++ (f0 :: ft)).getLast? = (f0 :: ft).getLast? :=
              List.getLast?_append_of_ne_nil ['.'] (by simp)
            rw [← hx]
            exact hh
        exact absurd (hdigf '.' (List.mem_of_getLast?_eq_some hh2)) (by decide)
    rw [if_neg hhead]
    have hdotint : '.' ∉ int := fun hm => absurd (hdigi '.' hm) (by decide)
    have hdotfrac : '.' ∉ frac := fun hm => absurd (hdigf '.' hm) (by decide)
    have hcnt : ¬ (1 < (int ++ '.' :: frac).count '.') := by
      rw [List.count_append, List.count_eq_zero.mpr hdotint, List.count_cons_self,
        List.count_eq_zero.mpr hdotfrac]
      omega
    rw [if_neg hcnt]
    have hlz : ¬ (leadZeroDigit (int ++ '.' :: frac) = true) := by
      rw [leadZeroDigit_append_dot frac hine hnlz]
      decide
    rw [if_neg hlz]
    have hsp : ¬ ((int ++ '.' :: frac).contains ' ' = true) := by
      intro hc
      rcases List.mem_append.mp (mem_of_containsCh hc) with hc1 | hc1
      · exact absurd (hdigi ' ' hc1) (by decide)
      · rcases List.mem_cons.mp hc1 with hc2 | hc2
        · exact absurd hc2 (by decide)
        · exact absurd (hdigf ' ' hc2) (by decide)
    rw [if_neg hsp]
    have hsplit : splitOnCh '.' (int ++ '.' :: frac) = [int, frac] := by
      rw [splitOnCh_append_sep '.' frac hdotint, splitOnCh_of_not_mem '.' hdotfrac]
    have hpd : parseFloatDec (int ++ '.' :: frac) =
        some ⟨digitsToNat int * 10 ^ frac.length + digitsToNat frac, frac.length⟩ := by
      unfold parseFloatDec
      rw [hsplit]
      show (if int = [] ∧ frac = [] then (none : Option DecNum)
          else some (⟨digitsToNat int * 10 ^ frac.length + digitsToNat frac,
            frac.length⟩ : DecNum)) =
        some (⟨digitsToNat int * 10 ^ frac.length + digitsToNat frac, frac.length⟩ : DecNum)
      rw [if_neg (fun hcon => hine hcon.1)]
    rw [hpd]
    show (if decide (digitsToNat int * 10 ^ frac.length + digitsToNat frac < 0) ||
          decide (5 * 10 ^ frac.length < digitsToNat int * 10 ^ frac.length + digitsToNat frac)
        then false
        else match splitOnCh '.' (int ++ '.' :: frac) with
          | _ :: fr :: _ =>
            if 2 < fr.length then false
            else decide (fr = ['0'] ∨ fr = ['2', '5'] ∨ fr = ['5'] ∨ fr = ['7', '5'])
          | _ => true) = true
    rw [if_neg (by
      simp only [Bool.or_eq_true, decide_eq_true_eq, not_or]
      exact ⟨by omega, by omega⟩)]
    rw [hsplit]
    show (if 2 < frac.length then false
        else decide (frac = ['0'] ∨ frac = ['2', '5'] ∨ frac = ['5'] ∨ frac = ['7', '5'])) = true
    have hlen : ¬ (2 < frac.length) := by
      rcases hwl with rfl | rfl | rfl | rfl <;> simp
    rw [if_neg hlen]
    exact decide_eq_true hwl

/-- Claim C4 (confirmed).  The rating validator accepts a string exactly when
it is a decimal numeral whose value lies in [0, 5], whose fractional part,
when present, is literally one of "0", "25", "5", "75", with no sign, no
leading zero ahead of a further digit, no leading or trailing decimal point,
at most one decimal point, no whitespace and no scientific notation
(RatingSpec); in particular "3.5" and "5" are accepted while "3.3", "5.1"
and "-1" are rejected. -/
theorem c4_rating_quarter_granularity :
    (∀ cs : List Char, _isValidRating cs = true ↔ RatingSpec cs) ∧
    _isValidRating "3.5".data = true ∧
    _isValidRating "5".data = true ∧
    _isValidRating "3.3".data = false ∧
    _isValidRating "5.1".data = false ∧
    _isValidRating "-1".data = false :=
  ⟨fun _ => ⟨rating_forward, rating_backward⟩,
    by decide, by decide, by decide, by decide, by decide⟩

/-- Claim C5 (code bug).  The review-count validator of the source accepts
every string matching the digits-only pattern, including "01" (a leading
zero) and "12345678901" (eleven digits): the function tests only "/^\d+$/"
and "parseInt(count, 10) >= 0", with no leading-zero rejection and no
digit-length bound.  The claim (and the repository's own test-suite,
"validators.test.ts": "handles leading zeros" and the "Too long" case)
expects both to be rejected.  "0" is accepted and "-1" and "3.5" are
rejected, as the claim states. -/
theorem c5_review_count_code_bug :
    _isValidReviewCount "0".data = true ∧
    _isValidReviewCount "-1".data = false ∧
    _isValidReviewCount "3.5".data = false ∧
    _isValidReviewCount "01".data = true ∧
    _isValidReviewCount "12345678901".data = true := by
  refine ⟨by decide, by decide, by decide, by decide, by decide⟩

/-- Claim C6 (confirmed).  Every validator throws exactly on non-string
arguments, and for string arguments never throws: it returns the Boolean of
its (total) string-branch body, so a domain violation yields false, not an
exception. -/
theorem c6_validators_throw_on_non_string :
    (∀ v : JsValue,
      (isValidUrlJs v).isOk = v.isString ∧
      (isValidCurrencyJs v).isOk = v.isString ∧
      (isValidAvailabilityJs v).isOk = v.isString ∧
      (isValidRatingJs v).isOk = v.isString ∧
      (isValidReviewCountJs v).isOk = v.isString) ∧
    (∀ s : String,
      isValidUrlJs (.str s) = .ok (_isValidUrl s.data) ∧
      isValidCurrencyJs (.str s) = .ok (_isValidCurrency s) ∧
      isValidAvailabilityJs (.str s) = .ok (_isValidAvailability s) ∧
      isValidRatingJs (.str s) = .ok (_isValidRating s.data) ∧
      isValidReviewCountJs (.str s) = .ok (_isValidReviewCount s.data)) := by
  constructor
  · intro v
    cases v <;> exact ⟨rfl, rfl, rfl, rfl, rfl⟩
  · intro s
    exact ⟨rfl, rfl, rfl, rfl, rfl⟩

/-- Claim C7 (confirmed).  The URL validator accepts only the http and https
schemes, rejects every input the URL parser cannot parse, and on the
boundary cases: "https://example.com" and "http://[2001:db8::1]:8080" are
accepted; "ftp://example.com", "http://256.256.256.256" (an IPv4 octet out
of range makes parsing fail) and "https://example..com" (an empty domain
label) are rejected. -/
theorem c7_url_validator_boundaries :
    (∀ cs : List Char, parseURL cs = none → _isValidUrl cs = false) ∧
    (∀ (cs : List Char) (u : URLParts), parseURL cs = some u → _isValidUrl cs = true →
      u.protocol = "http:".data ∨ u.protocol = "https:".data) ∧
    _isValidUrl "https://example.com".data = true ∧
    _isValidUrl "http://[2001:db8::1]:8080".data = true ∧
    _isValidUrl "ftp://example.com".data = false ∧
    _isValidUrl "http://256.256.256.256".data = false ∧
    _isValidUrl "https://example..com".data = false := by
  refine ⟨?_, ?_, by decide, by decide, by decide, by decide, by decide⟩
  · intro cs h
    unfold _isValidUrl
    rw [h]
  · intro cs u hp ht
    by_contra hcon
    push_neg at hcon
    have h1 : (u.protocol == "http:".data) = false := beq_eq_false_iff_ne.mpr hcon.1
    have h2 : (u.protocol == "https:".data) = false := beq_eq_false_iff_ne.mpr hcon.2
    unfold _isValidUrl at ht
    simp only [hp] at ht
    rw [h1, h2] at ht
    simp at ht

/-- Witness for C7's conditional conjuncts at concrete inputs: the accepted
URL "https://example.com" parses to the https protocol, and the scheme-less
"not-a-url" fails to parse and is rejected. -/
theorem c7_url_validator_boundaries_witness :
    (parseURL "not-a-url".data = none ∧ _isValidUrl "not-a-url".data = false) ∧
    (parseURL "https://example.com".data =
        some ⟨"https:".data, "example.com".data, [], "/".data, []⟩ ∧
      ("https:".data = "http:".data ∨ "https:".data = "https:".data)) :=
  ⟨⟨by decide, c7_url_validator_boundaries.1 "not-a-url".data (by decide)⟩,
    ⟨by decide,
      c7_url_validator_boundaries.2.1 "https://example.com".data
        ⟨"https:".data, "example.com".data, [], "/".data, []⟩ (by decide) (by decide)⟩⟩

/-- Claim C8 (confirmed).  Product-schema generation is all-or-nothing: with
"priceCurrency: 'XXX'" the invalid-currency error is thrown and no schema
object exists (the Except is an error); when every supplied field passes its
validator the result is a schema whose "offers.priceCurrency" is exactly the
supplied currency; and the first failing field in the order currency,
availability, rating, review count determines the thrown error. -/
theorem c8_product_schema_all_or_nothing :
    (∀ cfg : ProductConfig, cfg.priceCurrency = some "XXX" →
      generateProductSchema (some cfg) = .error (.invalidCurrency "XXX")) ∧
    (∀ (cfg : ProductConfig) (c : String), cfg.priceCurrency = some c →
      _isValidCurrency c = true →
      _isValidAvailability (availabilityOf (some cfg)) = true →
      _isValidRating (ratingOf (some cfg)).data = true →
      _isValidReviewCount (reviewCountOf (some cfg)).data = true →
      ∃ ps, generateProductSchema (some cfg) = .ok ps ∧ ps.offers.priceCurrency = c) ∧
    (∀ config : Option ProductConfig,
      (_isValidCurrency (currencyOf config) = false →
        generateProductSchema config = .error (.invalidCurrency (currencyOf config))) ∧
      (_isValidCurrency (currencyOf config) = true →
        _isValidAvailability (availabilityOf config) = false →
        generateProductSchema config = .error (.invalidAvailability (availabilityOf config))) ∧
      (_isValidCurrency (currencyOf config) = true →
        _isValidAvailability (availabilityOf config) = true →
        _isValidRating (ratingOf config).data = false →
        generateProductSchema config = .error (.invalidRating (ratingOf config))) ∧
      (_isValidCurrency (currencyOf config) = true →
        _isValidAvailability (availabilityOf config) = true →
        _isValidRating (ratingOf config).data = true →
        _isValidReviewCount (reviewCountOf config).data = false →
        generateProductSchema config = .error (.invalidReviewCount (reviewCountOf config)))) := by
  refine ⟨?_, ?_, ?_⟩
  · intro cfg h
    have hc : currencyOf (some cfg) = "XXX" := by simp [currencyOf, h]
    unfold generateProductSchema
    rw [hc, if_pos (by decide)]
  · intro cfg c h hcv hav hrv hcc
    have hc : currencyOf (some cfg) = c := by simp [currencyOf, h]
    have hgen : generateProductSchema (some cfg) = .ok {
          name := ((some cfg).bind (fun cf => cf.name)).getD "Premium Homemade Cat Food",
          description := ((some cfg).bind (fun cf => cf.description)).getD
            "Fresh, natural cat food made with chicken, potatoes, and carrots. No additives or preservatives.",
          brandName := ((some cfg).bind (fun cf => cf.brandName)).getD "Choji Store",
          category := ((some cfg).bind (fun cf => cf.category)).getD "Pet Food",
          offers := {
            availability := availabilityOf (some cfg),
            priceCurrency := c,
            sellerName := ((some cfg).bind (fun cf => cf.brandName)).getD "Choji Store" },
          aggregateRating := {
            ratingValue := ratingOf (some cfg),
            reviewCount := reviewCountOf (some cfg) } } := by
      unfold generateProductSchema
      rw [hc, if_neg (by rw [hcv]; decide), if_neg (by rw [hav]; decide),
        if_neg (by rw [hrv]; decide), if_neg (by rw [hcc]; decide)]
    exact ⟨_, hgen, rfl⟩
  · intro config
    refine ⟨?_, ?_, ?_, ?_⟩
    · intro h1
      unfold generateProductSchema
      rw [if_pos (by rw [h1]; decide)]
    · intro h1 h2
      unfold generateProductSchema
      rw [if_neg (by rw [h1]; decide), if_pos (by rw [h2]; decide)]
    · intro h1 h2 h3
      unfold generateProductSchema
      rw [if_neg (by rw [h1]; decide), if_neg (by rw [h2]; decide),
        if_pos (by rw [h3]; decide)]
    · intro h1 h2 h3 h4
      unfold generateProductSchema
      rw [if_neg (by rw [h1]; decide), if_neg (by rw [h2]; decide),
        if_neg (by rw [h3]; decide), if_pos (by rw [h4]; decide)]

/-- Witness for C8 at concrete inputs: a config with currency "XXX" throws
the invalid-currency error, and an all-valid config ("EUR", OutOfStock,
"4.75", "12") returns a schema carrying exactly "EUR". -/
theorem c8_product_schema_all_or_nothing_witness :
    generateProductSchema (some cfgXXX) = .error (.invalidCurrency "XXX") ∧
    (∃ ps, generateProductSchema (some cfgValidEUR) = .ok ps ∧
      ps.offers.priceCurrency = "EUR") :=
  ⟨c8_product_schema_all_or_nothing.1 cfgXXX rfl,
    c8_product_schema_all_or_nothing.2.1 cfgValidEUR "EUR"
      rfl (by decide) (by decide) (by decide) (by decide)⟩

/-- Claim C9 (confirmed).  Generating with no configuration (or an empty
one) never throws: the defaults all pass their validators and the schema
carries priceCurrency "USD", availability "https://schema.org/InStock",
ratingValue "5" and reviewCount "50". -/
theorem c9_default_product_schema_valid :
    (∃ ps, generateProductSchema none = .ok ps ∧
      ps.offers.priceCurrency = "USD" ∧
      ps.offers.availability = "https://schema.org/InStock" ∧
      ps.aggregateRating.ratingValue = "5" ∧
      ps.aggregateRating.reviewCount = "50") ∧
    generateProductSchema (some {}) = generateProductSchema none :=
  ⟨⟨_, rfl, rfl, rfl, rfl, rfl⟩, rfl⟩

/-- Claim C10 (confirmed).  The schema cache is a set/get round trip keyed by
the serialized configuration: a get before the TTL elapses returns exactly
the stored data and leaves the cache unchanged; a get at or after the TTL
returns undefined and deletes the entry for that key. -/
theorem c10_schema_cache_roundtrip {δ : Type} (st : SchemaCacheState δ)
    (pre : String) (config : Option String) (d : δ) (t₁ t₂ : Nat) :
    (t₂ - t₁ < TTL →
      schemaCacheGet (schemaCacheSet st pre d config t₁) pre config t₂ =
        (some d, schemaCacheSet st pre d config t₁)) ∧
    (TTL ≤ t₂ - t₁ →
      (schemaCacheGet (schemaCacheSet st pre d config t₁) pre config t₂).1 = none ∧
      mapGet (schemaCacheGet (schemaCacheSet st pre d config t₁) pre config t₂).2
        (generateKey pre config) = none) := by
  have hget : mapGet (schemaCacheSet st pre d config t₁) (generateKey pre config) =
      some ⟨d, t₁, generateKey pre config⟩ :=
    mapGet_mapSet_self st (generateKey pre config) ⟨d, t₁, generateKey pre config⟩
  constructor
  · intro hlive
    unfold schemaCacheGet
    simp only [hget]
    rw [if_pos hlive]
  · intro hstale
    unfold schemaCacheGet
    simp only [hget]
    rw [if_neg (by omega)]
    exact ⟨rfl, mapGet_mapDelete_self _ _⟩

/-- Witness for C10 at concrete inputs: an empty cache, prefix "product",
absent config, datum 7, stored at time 0, read back at times 1 and TTL. -/
theorem c10_schema_cache_roundtrip_witness :
    ((1 : Nat) - 0 < TTL ∧
      schemaCacheGet (schemaCacheSet ([] : SchemaCacheState Nat) "product" 7 none 0)
        "product" none 1 =
        (some 7, schemaCacheSet ([] : SchemaCacheState Nat) "product" 7 none 0)) ∧
    (TTL ≤ TTL - 0 ∧
      (schemaCacheGet (schemaCacheSet ([] : SchemaCacheState Nat) "product" 7 none 0)
        "product" none TTL).1 = none ∧
      mapGet (schemaCacheGet (schemaCacheSet ([] : SchemaCacheState Nat) "product" 7 none 0)
        "product" none TTL).2 (generateKey "product" none) = none) :=
  ⟨⟨by decide,
      (c10_schema_cache_roundtrip ([] : SchemaCacheState Nat) "product" none 7 0 1).1
        (by decide)⟩,
    ⟨by decide,
      (c10_schema_cache_roundtrip ([] : SchemaCacheState Nat) "product" none 7 0 TTL).2
        (by decide)⟩⟩
